import Mathlib

/-!
Verification of the template rewrite/mapping engine in
`packages/transform/src/map-template-contents.ts`.

The engine is embedded shallowly: driver programs (sequences of calls to the
`emit` capabilities handed to the caller-supplied callback) are represented as
an inductive `Op` tree, and the mutable state of `mapTemplateContents`
(the segment stack, mapping stack, indentation, running offset, pending-indent
flag and the error collector) is threaded explicitly through an interpreter.
-/

namespace MapTemplateContents

/-- A pair of absolute offsets `{start, end}` into a text buffer.
`end` is a Lean keyword, so the field is called `stop`. -/
structure Range where
  start : Nat
  stop : Nat
  deriving Repr, DecidableEq

/-- An entry of the error collector: `{ message, location }`. -/
structure TemplateError where
  message : String
  location : Range
  deriving Repr, DecidableEq

/-- A 1-indexed line / 0-indexed column position, as produced by the
external parser (`@glimmer/syntax`). -/
structure Pos where
  line : Nat
  column : Nat
  deriving Repr, DecidableEq

/-- A source location `{ start, end }` of an AST node (`end` is a keyword,
so the field is called `stop`). -/
structure Loc where
  start : Pos
  stop : Pos
  deriving Repr, DecidableEq

/-- The only node distinction `map-template-contents.ts` inspects: whether the
node is a `TextNode` (in which case its `chars` are examined) or anything
else.  All other structure of AST nodes is opaque to the engine. -/
inductive NodeKind where
  | textNode (chars : String)
  | other
  deriving Repr, DecidableEq

/-- An AST node as seen by the engine: a location plus the kind tag. -/
structure Node where
  loc : Loc
  kind : NodeKind
  deriving Repr, DecidableEq

/-- The `source` stored in a mapping: either an AST node or an `Identifier`
(the class wrapping a bare identifier string). -/
inductive MappingSource where
  | astNode (n : Node)
  | identifier (name : String)
  deriving Repr, DecidableEq

/-- Modelled from the spec: the `MappingTree` class (imported from
`mapping-tree.ts`, which is not part of the sources) is, per the spec's
`MappingNode`, a plain record `{outputRange, sourceRange, children, origin}`.
The constructor argument order matches the call sites
`new MappingTree(tsRange, hbsRange, mappings, source)`. -/
inductive MappingTree where
  | mk (tsRange : Range) (hbsRange : Range) (children : List MappingTree)
       (source : MappingSource)
  deriving Repr

/-- The output range (`tsRange`) of a mapping node. -/
def MappingTree.tsRange : MappingTree → Range
  | .mk r _ _ _ => r

/-- The source range (`hbsRange`) of a mapping node. -/
def MappingTree.hbsRange : MappingTree → Range
  | .mk _ r _ _ => r

/-- The children of a mapping node. -/
def MappingTree.children : MappingTree → List MappingTree
  | .mk _ _ cs _ => cs

/-- The origin of a mapping node. -/
def MappingTree.source : MappingTree → MappingSource
  | .mk _ _ _ s => s

/-- The mutable state of a single `mapTemplateContents` invocation:
`segmentsStack`, `mappingsStack` (innermost scope first, mirroring
`unshift`/`shift`/`[0]` in the source), the current `indent` string, the
running output `offset`, the `needsIndent` flag and the error collector. -/
structure EmitState where
  segmentsStack : List (List String)
  mappingsStack : List (List MappingTree)
  indent : String
  offset : Nat
  needsIndent : Bool
  errors : List TemplateError
  deriving Repr

/-- The outcome of running driver code: either a normal return with the
resulting state, or a propagating exception carrying its message and the
state at the moment of the throw. -/
inductive Outcome where
  | normal (s : EmitState)
  | thrown (message : String) (s : EmitState)
  deriving Repr

/-- The state carried by an outcome. -/
def Outcome.state : Outcome → EmitState
  | .normal s => s
  | .thrown _ s => s

/-- Modify the head of a list, if any (the JS code mutates `stack[0]`). -/
def modifyTop {α : Type} (f : α → α) : List α → List α
  | [] => []
  | x :: xs => f x :: xs

/-- `emit.newline()`: advance the offset by 1, push a `"\n"` segment onto the
innermost scope, and mark indentation as pending. -/
def emitNewline (s : EmitState) : EmitState :=
  { s with
    offset := s.offset + 1
    segmentsStack := modifyTop (fun segs => segs ++ ["\n"]) s.segmentsStack
    needsIndent := true }

/-- `emit.text(value)`: if indentation is pending, first push the current
indent string (advancing the offset by its length), then push `value`
verbatim and advance the offset by its length. -/
def emitText (value : String) (s : EmitState) : EmitState :=
  let s1 :=
    if s.needsIndent then
      { s with
        offset := s.offset + s.indent.length
        segmentsStack := modifyTop (fun segs => segs ++ [s.indent]) s.segmentsStack
        needsIndent := false }
    else s
  { s1 with
    offset := s1.offset + value.length
    segmentsStack := modifyTop (fun segs => segs ++ [value]) s1.segmentsStack }

/-- Entering a scope in `captureMapping`: `unshift` a fresh segment list and a
fresh child-mapping list onto the two stacks. -/
def pushScope (s : EmitState) : EmitState :=
  { s with
    segmentsStack := [] :: s.segmentsStack
    mappingsStack := [] :: s.mappingsStack }

/-- Leaving a scope in `captureMapping`: `shift` both stacks; if the offset
moved since scope entry (`start !== offset`), push a new `MappingTree` onto
the parent's child list and splice the captured segments into the parent's
segment list, otherwise discard both. -/
def commitScope (hbsRange : Range) (source : MappingSource) (start : Nat)
    (s : EmitState) : EmitState :=
  match s.segmentsStack, s.mappingsStack with
  | segments :: segRest, mappings :: mapRest =>
    if start = s.offset then
      { s with segmentsStack := segRest, mappingsStack := mapRest }
    else
      { s with
        segmentsStack := modifyTop (fun segs => segs ++ segments) segRest
        mappingsStack := modifyTop
          (fun ms => ms ++ [MappingTree.mk ⟨start, s.offset⟩ hbsRange mappings source])
          mapRest }
  | _, _ => s

/-- The catch/exit portion of `captureMapping` applied to the outcome of the
callback: on a throw, record `{message, location: hbsRange}` in the error
collector and reset the offset to `start`; in both cases pop the two scope
stacks and commit or discard via `commitScope`.  Failures never propagate
past this point. -/
def finishCapture (hbsRange : Range) (source : MappingSource) (start : Nat) :
    Outcome → EmitState
  | .normal s => commitScope hbsRange source start s
  | .thrown msg s =>
      commitScope hbsRange source start
        { s with errors := s.errors ++ [⟨msg, hbsRange⟩], offset := start }

/-- A driver program: the sequence of calls the caller-supplied callback makes
against the `emit` capability object, including throwing an exception.
`forNode` carries the callback body as a nested program. -/
inductive Op where
  | newline
  | indentOp
  | dedent
  | text (value : String)
  | identifier (value : String) (hbsOffset : Nat) (hbsLength : Option Nat)
  | forNode (node : Node) (body : List Op)
  | throwErr (message : String)
  deriving Repr

mutual

/-- Interpret a single `emit` call against the current state.
`rfn` is the `rangeForNode` closure. -/
def interpOp (rfn : Node → Range) : Op → EmitState → Outcome
  | .newline, s => .normal (emitNewline s)
  | .indentOp, s => .normal { s with indent := s.indent ++ "  " }
  | .dedent, s => .normal { s with indent := s.indent.drop 2 }
  | .text value, s => .normal (emitText value s)
  | .throwErr message, s => .thrown message s
  | .identifier value hbsOffset hbsLength, s =>
      -- captureMapping with an Identifier source whose callback is
      -- `() => emit.text(value)` (which never throws)
      let len := hbsLength.getD value.length
      let hbsRange : Range := ⟨hbsOffset, hbsOffset + len⟩
      .normal (finishCapture hbsRange (.identifier value) s.offset
        (.normal (emitText value (pushScope s))))
  | .forNode node body, s =>
      .normal (finishCapture (rfn node) (.astNode node) s.offset
        (interpOps rfn body (pushScope s)))

/-- Interpret a sequence of `emit` calls; a thrown exception aborts the rest
of the sequence and propagates. -/
def interpOps (rfn : Node → Range) : List Op → EmitState → Outcome
  | [], s => .normal s
  | op :: rest, s =>
      match interpOp rfn op s with
      | .normal s1 => interpOps rfn rest s1
      | .thrown msg s1 => .thrown msg s1

end

/-- `segmentsStack[0].join('')`: concatenation of a list of strings, with the
empty separator. -/
def joinSegments : List String → String
  | [] => ""
  | s :: rest => s ++ joinSegments rest

/-- `template.split('\n')` over the character list: split at every newline
character.  Splitting the empty string yields one empty line, matching
JavaScript's `split`. -/
def splitLines : List Char → List (List Char)
  | [] => [[]]
  | c :: rest =>
      match splitLines rest with
      | [] => [[]]
      | l :: ls => if c = '\n' then [] :: l :: ls else (c :: l) :: ls

/-- The lines of a template, as produced by `template.split('\n')`. -/
def templateLines (template : String) : List String :=
  (splitLines template.toList).map String.mk

/-- The loop body of `calculateLineOffsets`: starting from the running total
`total`, the offset recorded for each subsequent line (the value of `total`
just before `total += line.length + 1`). -/
def lineOffsetsAux (total : Nat) : List String → List Nat
  | [] => []
  | line :: rest => total :: lineOffsetsAux (total + line.length + 1) rest

/-- `calculateLineOffsets(template)`: split the template on `'\n'`, build the
`offsets` table (`offsets[0] = 0`, `offsets[index+1] = total` before adding
`line.length + 1`), and return the `rangeForNode` closure, including the
whitespace-trimming special case for `TextNode`s. -/
def calculateLineOffsets (template : String) : Node → Range :=
  let lines := templateLines template
  let offsets := 0 :: lineOffsetsAux 0 lines
  fun node =>
    let start := offsets.getD node.loc.start.line 0 + node.loc.start.column
    let stop := offsets.getD node.loc.stop.line 0 + node.loc.stop.column
    match node.kind with
    | .textNode chars =>
      let leading := (chars.toList.takeWhile Char.isWhitespace).length
      let trailing := (chars.toList.reverse.takeWhile Char.isWhitespace).length
      if leading ≠ chars.length then ⟨start + leading, stop - trailing⟩
      else ⟨start, stop⟩
    | .other => ⟨start, stop⟩

/-- A failure that escapes `mapTemplateContents` as a JavaScript exception:
either an exception thrown by the driver callback outside every
`forNode`/`identifier` scope (line 175 runs outside any try/catch), or the
`assert(segmentsStack.length === 1)` on line 177 failing. -/
inductive ThrownFailure where
  | driverThrow (message : String)
  | assertionFailed
  deriving Repr, DecidableEq

/-- The `result` field of a successful rewrite: `{ code, mapping }`. -/
structure RewriteSuccess where
  code : String
  mapping : MappingTree
  deriving Repr

/-- The `RewriteResult` record: accumulated errors plus the optional result. -/
structure RewriteResult where
  errors : List TemplateError
  result : Option RewriteSuccess
  deriving Repr

/-- The initial emit state of `mapTemplateContents`: both stacks hold a single
empty root scope, no indentation, offset 0, no pending indent, no errors. -/
def initState : EmitState :=
  { segmentsStack := [[]]
    mappingsStack := [[]]
    indent := ""
    offset := 0
    needsIndent := false
    errors := [] }

/-- `mapTemplateContents(template, callback)`.  The external parser is a
black-box parameter `parse`; the caller-supplied callback is the `driver`,
which receives the AST and produces the sequence of `emit` calls it makes.
A parse failure returns immediately with a single whole-template error and no
result.  A driver exception at the top level, or a failure of the
`assert(segmentsStack.length === 1)`, escapes as `Except.error`. -/
def mapTemplateContents (parse : String → Except String Node) (template : String)
    (driver : Node → List Op) : Except ThrownFailure RewriteResult :=
  match parse template with
  | .error message =>
      .ok { errors := [⟨message, ⟨0, template.length⟩⟩], result := none }
  | .ok ast =>
      let rangeForNode := calculateLineOffsets template
      match interpOps rangeForNode (driver ast) initState with
      | .thrown message _ => .error (.driverThrow message)
      | .normal s1 =>
          if s1.segmentsStack.length = 1 then
            let code := joinSegments (s1.segmentsStack.headD [])
            let mapping := MappingTree.mk ⟨0, code.length⟩ (rangeForNode ast)
              (s1.mappingsStack.headD []) (.astNode ast)
            .ok { errors := s1.errors, result := some ⟨code, mapping⟩ }
          else .error .assertionFailed

/-- Total length of a list of segments. -/
def sumLens (l : List String) : Nat := (l.map String.length).sum

mutual

/-- Output-range well-formedness of a mapping node: its range is proper and
its children are well-formed within it. -/
def treeWfB : MappingTree → Bool
  | .mk ts _ children _ => decide (ts.start ≤ ts.stop) && forestWfB ts.start ts.stop children

/-- Output-range well-formedness of a sibling list within `[lo, hi]`: each
node's output range lies inside `[lo, hi]`, siblings are ordered by
`outputRange.start` and never overlap, and each node is itself well-formed. -/
def forestWfB (lo hi : Nat) : List MappingTree → Bool
  | [] => true
  | t :: rest =>
      decide (lo ≤ t.tsRange.start) && decide (t.tsRange.stop ≤ hi) &&
      treeWfB t && forestWfB t.tsRange.stop hi rest

end

mutual

/-- Source-range containment of a mapping node: every child's `hbsRange` lies
within its parent's `hbsRange`, recursively. -/
def srcTreeWfB : MappingTree → Bool
  | .mk _ hbs children _ => srcForestWfB hbs children

/-- Source-range containment of a sibling list under a parent range. -/
def srcForestWfB (parent : Range) : List MappingTree → Bool
  | [] => true
  | t :: rest =>
      decide (parent.start ≤ t.hbsRange.start) && decide (t.hbsRange.stop ≤ parent.stop) &&
      srcTreeWfB t && srcForestWfB parent rest

end

/-- A sibling list tiles `[lo, hi)` exactly: consecutive output ranges are
adjacent, the first starts at `lo` and the last ends at `hi`. -/
def forestTilesB (lo hi : Nat) : List MappingTree → Bool
  | [] => decide (lo = hi)
  | t :: rest =>
      decide (t.tsRange.start = lo) && decide (lo ≤ t.tsRange.stop) &&
      forestTilesB t.tsRange.stop hi rest

/-- The substring of `code` covered by the half-open offset range `[a, b)`. -/
def sliceStr (code : String) (a b : Nat) : String :=
  String.mk ((code.toList.drop a).take (b - a))

/-- Concatenation, in order, of the substrings of `code` covered by the
output ranges of the given mapping nodes. -/
def coveredText (code : String) (ts : List MappingTree) : String :=
  joinSegments (ts.map fun t => sliceStr code t.tsRange.start t.tsRange.stop)

mutual

/-- No `newline` call occurs anywhere in the given op, including inside
nested `forNode` bodies. -/
def noNewlineOp : Op → Bool
  | .newline => false
  | .forNode _ body => noNewlineOps body
  | _ => true

/-- No `newline` call occurs anywhere in the given op sequence. -/
def noNewlineOps : List Op → Bool
  | [] => true
  | op :: rest => noNewlineOp op && noNewlineOps rest

end

/-- An op that performs all of its emission inside a scoped capture (or emits
nothing at all): `forNode`, `identifier`, `indent` and `dedent`. -/
def isScopedOp : Op → Bool
  | .forNode _ _ => true
  | .identifier _ _ _ => true
  | .indentOp => true
  | .dedent => true
  | _ => false

/-- The joint frame/accounting invariant relating a pre-state to the outcome
of running driver code from it: the tails of both stacks are untouched, the
innermost segment and mapping lists only grow at their ends, errors only
accumulate, the offset advances by exactly the total length of the new
segments, and the newly appended mapping nodes form a well-formed, ordered,
non-overlapping forest between the old and new offsets. -/
def StepInv (s : EmitState) (o : Outcome) : Prop :=
  ∀ hs ts hm tm, s.segmentsStack = hs :: ts → s.mappingsStack = hm :: tm →
    ∃ ds dm de,
      o.state.segmentsStack = (hs ++ ds) :: ts ∧
      o.state.mappingsStack = (hm ++ dm) :: tm ∧
      o.state.errors = s.errors ++ de ∧
      o.state.offset = s.offset + sumLens ds ∧
      forestWfB s.offset o.state.offset dm = true
/-- A concrete external parser used for closed examples: it succeeds with a
single `other` node spanning line 1, columns 0 to the template's length. -/
def parseOk : String → Except String Node :=
  fun template => .ok ⟨⟨⟨1, 0⟩, ⟨1, template.length⟩⟩, .other⟩
/-- Spec-side description of the offset table: cumulative length of the given
lines, each counted with its line terminator. -/
def lineLenSum (lines : List String) : Nat :=
  (lines.map (fun l => l.length + 1)).sum
/-- Replace the indentation prefix of a state. -/
def setIndent (j : String) (s : EmitState) : EmitState := { s with indent := j }

/-- Apply `setIndent` to the state carried by an outcome. -/
def setIndentO (j : String) : Outcome → Outcome
  | .normal s => .normal (setIndent j s)
  | .thrown msg s => .thrown msg (setIndent j s)

/-- Erase the indentation prefix of an outcome's state, for comparing runs
that differ only in their indentation level. -/
def indentErase : Outcome → Outcome := setIndentO ""

@[simp] theorem Outcome.state_normal (s : EmitState) : (Outcome.normal s).state = s := rfl

@[simp] theorem Outcome.state_thrown (m : String) (s : EmitState) :
    (Outcome.thrown m s).state = s := rfl

@[simp] theorem modifyTop_nil {α : Type} (f : α → α) : modifyTop f [] = [] := rfl

@[simp] theorem modifyTop_cons {α : Type} (f : α → α) (x : α) (xs : List α) :
    modifyTop f (x :: xs) = f x :: xs := rfl

@[simp] theorem newline_string_length : ("\n").length = 1 := rfl

theorem sumLens_append (a b : List String) :
    sumLens (a ++ b) = sumLens a + sumLens b := by
  simp [sumLens]

theorem modifyTop_modifyTop {α : Type} (f g : α → α) (l : List α) :
    modifyTop f (modifyTop g l) = modifyTop (fun x => f (g x)) l := by
  cases l <;> rfl

/-- Explicit form of `emit.text`: a single record update in each branch of the
pending-indentation test. -/
theorem emitText_eq (value : String) (s : EmitState) :
    emitText value s =
      if s.needsIndent then
        { s with
          offset := s.offset + s.indent.length + value.length
          segmentsStack := modifyTop (fun segs => segs ++ [s.indent, value]) s.segmentsStack
          needsIndent := false }
      else
        { s with
          offset := s.offset + value.length
          segmentsStack := modifyTop (fun segs => segs ++ [value]) s.segmentsStack } := by
  by_cases hni : s.needsIndent = true <;>
    simp [emitText, hni, modifyTop_modifyTop, List.append_assoc]

@[simp] theorem pushScope_offset (s : EmitState) : (pushScope s).offset = s.offset := rfl

@[simp] theorem pushScope_errors (s : EmitState) : (pushScope s).errors = s.errors := rfl

@[simp] theorem pushScope_indent (s : EmitState) : (pushScope s).indent = s.indent := rfl

@[simp] theorem pushScope_needsIndent (s : EmitState) :
    (pushScope s).needsIndent = s.needsIndent := rfl

theorem pushScope_segmentsStack (s : EmitState) :
    (pushScope s).segmentsStack = [] :: s.segmentsStack := rfl

theorem pushScope_mappingsStack (s : EmitState) :
    (pushScope s).mappingsStack = [] :: s.mappingsStack := rfl

theorem forestWfB_cons (lo hi : Nat) (t : MappingTree) (rest : List MappingTree) :
    forestWfB lo hi (t :: rest) = true ↔
      lo ≤ t.tsRange.start ∧ t.tsRange.stop ≤ hi ∧ treeWfB t = true ∧
      forestWfB t.tsRange.stop hi rest = true := by
  simp only [forestWfB, Bool.and_eq_true, decide_eq_true_eq]
  tauto

theorem forestWfB_mono_lo {mid hi : Nat} {ys : List MappingTree} (lo : Nat)
    (h : forestWfB mid hi ys = true) (hlm : lo ≤ mid) :
    forestWfB lo hi ys = true := by
  cases ys with
  | nil => simp [forestWfB]
  | cons t rest =>
    rw [forestWfB_cons] at h ⊢
    exact ⟨le_trans hlm h.1, h.2.1, h.2.2.1, h.2.2.2⟩

theorem forestWfB_append {lo mid hi : Nat} {xs ys : List MappingTree}
    (h1 : forestWfB lo mid xs = true) (h2 : forestWfB mid hi ys = true)
    (hlm : lo ≤ mid) (hmh : mid ≤ hi) :
    forestWfB lo hi (xs ++ ys) = true := by
  induction xs generalizing lo with
  | nil => exact forestWfB_mono_lo lo h2 hlm
  | cons x xs ih =>
    rw [forestWfB_cons] at h1
    obtain ⟨hlo, hstop, hwf, hrest⟩ := h1
    rw [List.cons_append, forestWfB_cons]
    exact ⟨hlo, le_trans hstop hmh, hwf, ih hrest hstop⟩


mutual

theorem interpOp_inv (rfn : Node → Range) (op : Op) (s : EmitState) :
    StepInv s (interpOp rfn op s) := by
  cases op with
  | newline =>
    intro hs ts hm tm h1 h2
    refine ⟨["\n"], [], [], ?_, ?_, ?_, ?_, ?_⟩ <;>
      simp [interpOp, emitNewline, modifyTop, h1, h2, sumLens, forestWfB]
  | indentOp =>
    intro hs ts hm tm h1 h2
    refine ⟨[], [], [], ?_, ?_, ?_, ?_, ?_⟩ <;>
      simp [interpOp, h1, h2, sumLens, forestWfB]
  | dedent =>
    intro hs ts hm tm h1 h2
    refine ⟨[], [], [], ?_, ?_, ?_, ?_, ?_⟩ <;>
      simp [interpOp, h1, h2, sumLens, forestWfB]
  | text value =>
    intro hs ts hm tm h1 h2
    by_cases hni : s.needsIndent = true
    · refine ⟨[s.indent, value], [], [], ?_, ?_, ?_, ?_, ?_⟩ <;>
        simp [interpOp, emitText, hni, modifyTop, h1, h2, sumLens, forestWfB]
      omega
    · refine ⟨[value], [], [], ?_, ?_, ?_, ?_, ?_⟩ <;>
        simp [interpOp, emitText, hni, modifyTop, h1, h2, sumLens, forestWfB]
  | throwErr message =>
    intro hs ts hm tm h1 h2
    refine ⟨[], [], [], ?_, ?_, ?_, ?_, ?_⟩ <;>
      simp [interpOp, h1, h2, sumLens, forestWfB]
  | identifier value hbsOffset hbsLength =>
    intro hs ts hm tm h1 h2
    by_cases hni : s.needsIndent = true
    · by_cases hoff : s.offset = s.offset + s.indent.length + value.length
      · refine ⟨[], [], [], ?_, ?_, ?_, ?_, ?_⟩ <;>
          simp [interpOp, finishCapture, commitScope, emitText_eq, pushScope, hni,
            h1, h2, sumLens, forestWfB, ← hoff]
      · refine ⟨[s.indent, value],
          [MappingTree.mk ⟨s.offset, s.offset + s.indent.length + value.length⟩
            ⟨hbsOffset, hbsOffset + hbsLength.getD value.length⟩ []
            (.identifier value)], [], ?_, ?_, ?_, ?_, ?_⟩ <;>
          simp [interpOp, finishCapture, commitScope, emitText_eq, pushScope, hni,
            h1, h2, sumLens, forestWfB, treeWfB, MappingTree.tsRange, hoff] <;>
          try omega
    · by_cases hoff : s.offset = s.offset + value.length
      · refine ⟨[], [], [], ?_, ?_, ?_, ?_, ?_⟩ <;>
          simp [interpOp, finishCapture, commitScope, emitText_eq, pushScope, hni,
            h1, h2, sumLens, forestWfB, ← hoff]
      · refine ⟨[value],
          [MappingTree.mk ⟨s.offset, s.offset + value.length⟩
            ⟨hbsOffset, hbsOffset + hbsLength.getD value.length⟩ []
            (.identifier value)], [], ?_, ?_, ?_, ?_, ?_⟩ <;>
          simp [interpOp, finishCapture, commitScope, emitText_eq, pushScope, hni,
            h1, h2, sumLens, forestWfB, treeWfB, MappingTree.tsRange, hoff]
  | forNode node body =>
    intro hs ts hm tm h1 h2
    have ih := interpOps_inv rfn body (pushScope s)
    have hps1 : (pushScope s).segmentsStack = [] :: hs :: ts := by
      rw [pushScope_segmentsStack, h1]
    have hps2 : (pushScope s).mappingsStack = [] :: hm :: tm := by
      rw [pushScope_mappingsStack, h2]
    obtain ⟨ds, dm, de, e1, e2, e3, e4, e5⟩ := ih [] (hs :: ts) [] (hm :: tm) hps1 hps2
    simp only [pushScope_offset, pushScope_errors, List.nil_append] at e1 e2 e3 e4 e5
    cases ho : interpOps rfn body (pushScope s) with
    | normal s2 =>
      rw [ho] at e1 e2 e3 e4 e5
      simp only [Outcome.state] at e1 e2 e3 e4 e5
      by_cases hoff : s.offset = s2.offset
      · refine ⟨[], [], de, ?_, ?_, ?_, ?_, ?_⟩ <;>
          simp [interpOp, ho, finishCapture, commitScope, e1, e2, e3, hoff, modifyTop,
            sumLens, forestWfB]
      · refine ⟨ds, [MappingTree.mk ⟨s.offset, s2.offset⟩ (rfn node) dm (.astNode node)],
          de, ?_, ?_, ?_, ?_, ?_⟩ <;>
          simp [interpOp, ho, finishCapture, commitScope, e1, e2, e3, hoff, modifyTop,
            forestWfB, treeWfB, MappingTree.tsRange]
        · exact e4
        · exact ⟨by omega, e5⟩
    | thrown msg s2 =>
      rw [ho] at e1 e2 e3 e4 e5
      simp only [Outcome.state] at e1 e2 e3 e4 e5
      refine ⟨[], [], de ++ [⟨msg, rfn node⟩], ?_, ?_, ?_, ?_, ?_⟩ <;>
        simp [interpOp, ho, finishCapture, commitScope, e1, e2, e3, modifyTop,
          sumLens, forestWfB]

theorem interpOps_inv (rfn : Node → Range) (ops : List Op) (s : EmitState) :
    StepInv s (interpOps rfn ops s) := by
  cases ops with
  | nil =>
    intro hs ts hm tm h1 h2
    refine ⟨[], [], [], ?_, ?_, ?_, ?_, ?_⟩ <;>
      simp [interpOps, h1, h2, sumLens, forestWfB]
  | cons op rest =>
    intro hs ts hm tm h1 h2
    have ih1 := interpOp_inv rfn op s
    obtain ⟨ds1, dm1, de1, e1, e2, e3, e4, e5⟩ := ih1 hs ts hm tm h1 h2
    cases ho : interpOp rfn op s with
    | normal s1 =>
      rw [ho] at e1 e2 e3 e4 e5
      simp only [Outcome.state] at e1 e2 e3 e4 e5
      have ih2 := interpOps_inv rfn rest s1
      obtain ⟨ds2, dm2, de2, f1, f2, f3, f4, f5⟩ := ih2 (hs ++ ds1) ts (hm ++ dm1) tm e1 e2
      refine ⟨ds1 ++ ds2, dm1 ++ dm2, de1 ++ de2, ?_, ?_, ?_, ?_, ?_⟩
      · simp [interpOps, ho, f1]
      · simp [interpOps, ho, f2]
      · simp [interpOps, ho, f3, e3]
      · simp [interpOps, ho, f4, e4, sumLens_append]; omega
      · simp only [interpOps, ho]
        exact forestWfB_append e5 f5 (by omega) (by omega)
    | thrown msg s1 =>
      rw [ho] at e1 e2 e3 e4 e5
      simp only [Outcome.state] at e1 e2 e3 e4 e5
      refine ⟨ds1, dm1, de1, ?_, ?_, ?_, ?_, ?_⟩ <;>
        simp only [interpOps, ho, Outcome.state_thrown] <;>
        first
          | exact e1
          | exact e2
          | exact e3
          | exact e4
          | exact e5

end

/-! ### Characterizations of a single `forNode` / `identifier` capture -/

theorem interpOps_cons_eq (rfn : Node → Range) (op : Op) (rest : List Op)
    (s : EmitState) :
    interpOps rfn (op :: rest) s =
      match interpOp rfn op s with
      | .normal s1 => interpOps rfn rest s1
      | .thrown msg s1 => .thrown msg s1 := by
  simp [interpOps]

theorem interpOp_forNode_eq (rfn : Node → Range) (node : Node) (body : List Op)
    (s : EmitState) :
    interpOp rfn (.forNode node body) s =
      .normal (finishCapture (rfn node) (.astNode node) s.offset
        (interpOps rfn body (pushScope s))) := by
  simp [interpOp]

/-- Frame shape of the state reached by a `forNode` body: the two scope lists
pushed on entry are still on top, holding exactly what the body emitted. -/
theorem body_state_shape (rfn : Node → Range) (body : List Op) (s : EmitState) :
    ∃ ds dm de,
      (interpOps rfn body (pushScope s)).state.segmentsStack = ds :: s.segmentsStack ∧
      (interpOps rfn body (pushScope s)).state.mappingsStack = dm :: s.mappingsStack ∧
      (interpOps rfn body (pushScope s)).state.errors = s.errors ++ de ∧
      (interpOps rfn body (pushScope s)).state.offset = s.offset + sumLens ds := by
  obtain ⟨ds, dm, de, e1, e2, e3, e4, _⟩ :=
    interpOps_inv rfn body (pushScope s) [] s.segmentsStack [] s.mappingsStack
      (pushScope_segmentsStack s) (pushScope_mappingsStack s)
  simp only [pushScope_offset, pushScope_errors, List.nil_append] at e1 e2 e3 e4
  exact ⟨ds, dm, de, e1, e2, e3, e4⟩

/-- C1 -- A `forNode` call whose callback emits one or more characters and then
throws leaves the output offset exactly as before the call, leaves the parent
scope's segment list and child mapping list untouched, and appends exactly one
`{message, location}` entry to the error collector, the location being the
node's source range; the call itself returns normally so execution continues
with whatever the driver does next. -/
theorem forNode_throw_rolls_back (rfn : Node → Range) (node : Node) (body : List Op)
    (s s2 : EmitState) (msg : String)
    (hbody : interpOps rfn body (pushScope s) = .thrown msg s2)
    (_hemit : s.offset < s2.offset) :
    interpOp rfn (.forNode node body) s =
      .normal { s2 with
        errors := s2.errors ++ [⟨msg, rfn node⟩]
        offset := s.offset
        segmentsStack := s.segmentsStack
        mappingsStack := s.mappingsStack } := by
  obtain ⟨ds, dm, de, e1, e2, e3, e4⟩ := body_state_shape rfn body s
  rw [hbody] at e1 e2
  simp only [Outcome.state_thrown] at e1 e2
  simp [interpOp, hbody, finishCapture, commitScope, e1, e2]

/-- Closed instance of `forNode_throw_rolls_back`: with body
`[text "x", throw "boom"]` from the initial state, the callback emits one
character and throws; all hypotheses hold and the rollback equation follows. -/
theorem forNode_throw_rolls_back_witness :
    (interpOps (fun _ => ⟨0, 2⟩) [.text "x", .throwErr "boom"]
        (pushScope initState) =
      .thrown "boom" ⟨[["x"], []], [[], []], "", 1, false, []⟩) ∧
    (0 < 1) ∧
    interpOp (fun _ => ⟨0, 2⟩)
        (.forNode ⟨⟨⟨1, 0⟩, ⟨1, 2⟩⟩, .other⟩ [.text "x", .throwErr "boom"]) initState =
      .normal { (⟨[["x"], []], [[], []], "", 1, false, []⟩ : EmitState) with
        errors := [] ++ [⟨"boom", ⟨0, 2⟩⟩]
        offset := 0
        segmentsStack := [[]]
        mappingsStack := [[]] } :=
  ⟨rfl, by omega,
    forNode_throw_rolls_back (fun _ => ⟨0, 2⟩) ⟨⟨⟨1, 0⟩, ⟨1, 2⟩⟩, .other⟩
      [.text "x", .throwErr "boom"] initState
      ⟨[["x"], []], [[], []], "", 1, false, []⟩ "boom" rfl (by decide)⟩

/-- C6 -- A `forNode` (or `identifier`) call whose callback returns normally
with the output offset unchanged creates no mapping node anywhere and leaves
the parent scope's segment list and child mapping list exactly as they were:
the resulting state keeps the pre-call stacks verbatim. -/
theorem forNode_empty_scope_elided (rfn : Node → Range) (node : Node)
    (body : List Op) (value : String) (hbsOffset : Nat) (hbsLength : Option Nat)
    (s : EmitState) :
    (∀ s2, interpOps rfn body (pushScope s) = .normal s2 → s2.offset = s.offset →
      interpOp rfn (.forNode node body) s =
        .normal { s2 with
          segmentsStack := s.segmentsStack
          mappingsStack := s.mappingsStack }) ∧
    ((emitText value (pushScope s)).offset = s.offset →
      interpOp rfn (.identifier value hbsOffset hbsLength) s =
        .normal { emitText value (pushScope s) with
          segmentsStack := s.segmentsStack
          mappingsStack := s.mappingsStack }) := by
  constructor
  · intro s2 hbody hoff
    obtain ⟨ds, dm, de, e1, e2, e3, e4⟩ := body_state_shape rfn body s
    rw [hbody] at e1 e2
    simp only [Outcome.state_normal] at e1 e2
    simp [interpOp, hbody, finishCapture, commitScope, e1, e2, hoff]
  · intro hoff
    have e1 : (emitText value (pushScope s)).segmentsStack =
        (if s.needsIndent then [s.indent, value] else [value]) :: s.segmentsStack := by
      rw [emitText_eq]
      by_cases hni : s.needsIndent = true <;>
        simp [hni, pushScope_segmentsStack, modifyTop]
    have e2 : (emitText value (pushScope s)).mappingsStack = [] :: s.mappingsStack := by
      rw [emitText_eq]
      by_cases hni : s.needsIndent = true <;> simp [hni, pushScope, modifyTop]
    simp [interpOp, finishCapture, commitScope, e1, e2, hoff]

/-- Closed instance of `forNode_empty_scope_elided`: an empty body emits
nothing, and the call leaves both stacks exactly as before. -/
theorem forNode_empty_scope_elided_witness :
    (interpOps (fun _ => ⟨0, 2⟩) [] (pushScope initState) =
      .normal (pushScope initState)) ∧
    (pushScope initState).offset = initState.offset ∧
    interpOp (fun _ => ⟨0, 2⟩) (.forNode ⟨⟨⟨1, 0⟩, ⟨1, 2⟩⟩, .other⟩ []) initState =
      .normal { pushScope initState with
        segmentsStack := initState.segmentsStack
        mappingsStack := initState.mappingsStack } :=
  ⟨rfl, rfl,
    (forNode_empty_scope_elided (fun _ => ⟨0, 2⟩) ⟨⟨⟨1, 0⟩, ⟨1, 2⟩⟩, .other⟩ []
      "x" 0 none initState).1 (pushScope initState) rfl rfl⟩

/-- C10 -- Rollback restores the offset but not the pending-indentation flag:
a `forNode` whose body emits a newline and then throws leaves `needsIndent`
set, so the next `text` call in the surviving parent scope first emits the
current indentation prefix, even though the newline that triggered it was
rolled back and the output contains no `"\n"` segment from it. -/
theorem rollback_preserves_pending_indent (rfn : Node → Range) (node : Node)
    (msg value : String) (s : EmitState) (hs : List String) (ts : List (List String))
    (h1 : s.segmentsStack = hs :: ts) (_hni : s.needsIndent = false) :
    interpOps rfn [.forNode node [.newline, .throwErr msg], .text value] s =
      .normal { s with
        segmentsStack := (hs ++ [s.indent, value]) :: ts
        offset := s.offset + s.indent.length + value.length
        needsIndent := false
        errors := s.errors ++ [⟨msg, rfn node⟩] } := by
  have hstep : interpOp rfn (.forNode node [.newline, .throwErr msg]) s =
      .normal { s with
        needsIndent := true
        errors := s.errors ++ [⟨msg, rfn node⟩] } := by
    simp [interpOp, interpOps, emitNewline, pushScope, modifyTop, finishCapture,
      commitScope]
  rw [interpOps_cons_eq, hstep]
  simp [interpOps, interpOp, emitText_eq, modifyTop, h1]

/-- Closed instance of `rollback_preserves_pending_indent`: with a two-space
indent in effect, the rolled-back newline still causes the following `text`
call to emit the indentation prefix, with no newline in the output. -/
theorem rollback_preserves_pending_indent_witness :
    ((⟨[[]], [[]], "  ", 0, false, []⟩ : EmitState).segmentsStack = [] :: []) ∧
    ((⟨[[]], [[]], "  ", 0, false, []⟩ : EmitState).needsIndent = false) ∧
    interpOps (fun _ => ⟨0, 2⟩)
        [.forNode ⟨⟨⟨1, 0⟩, ⟨1, 2⟩⟩, .other⟩ [.newline, .throwErr "boom"], .text "x"]
        ⟨[[]], [[]], "  ", 0, false, []⟩ =
      .normal { (⟨[[]], [[]], "  ", 0, false, []⟩ : EmitState) with
        segmentsStack := ([] ++ ["  ", "x"]) :: []
        offset := 0 + "  ".length + "x".length
        needsIndent := false
        errors := [] ++ [⟨"boom", ⟨0, 2⟩⟩] } :=
  ⟨rfl, rfl,
    rollback_preserves_pending_indent (fun _ => ⟨0, 2⟩) ⟨⟨⟨1, 0⟩, ⟨1, 2⟩⟩, .other⟩
      "boom" "x" ⟨[[]], [[]], "  ", 0, false, []⟩ [] [] rfl rfl⟩

/-! ### Failure propagation and the orchestrator -/


/-- C3 -- counterexample to the claim as stated: a failure thrown by the
driver at the top level, outside every `forNode`/`identifier` scope, is not
converted into an errors-list entry; it propagates out of
`mapTemplateContents` (the call on line 175 runs outside any try/catch). -/
theorem toplevel_throw_escapes :
    mapTemplateContents parseOk "ab" (fun _ => [.throwErr "boom"]) =
      .error (.driverThrow "boom") := rfl

/-- C3 -- amended: a failure thrown from within a `forNode` callback never
escapes `captureMapping` — the call always returns normally — and the failure
is recorded as `{message, location: sourceRange}` appended to the error
collector; only a throw from the top-level driver callback itself escapes
`mapTemplateContents`. -/
theorem capture_failures_never_escape (rfn : Node → Range) (node : Node)
    (body : List Op) (s : EmitState) :
    (∃ s', interpOp rfn (.forNode node body) s = .normal s') ∧
    (∀ msg s2, interpOps rfn body (pushScope s) = .thrown msg s2 →
      (interpOp rfn (.forNode node body) s).state.errors =
        s2.errors ++ [⟨msg, rfn node⟩]) := by
  constructor
  · exact ⟨_, interpOp_forNode_eq rfn node body s⟩
  · intro msg s2 hbody
    obtain ⟨ds, dm, de, e1, e2, e3, e4⟩ := body_state_shape rfn body s
    rw [hbody] at e1 e2
    simp only [Outcome.state_thrown] at e1 e2
    simp [interpOp, hbody, finishCapture, commitScope, e1, e2]

/-- Closed instance of `capture_failures_never_escape`: a body that throws
immediately gets its failure recorded against the node's range. -/
theorem capture_failures_never_escape_witness :
    (interpOps (fun _ => ⟨0, 2⟩) [.throwErr "b"] (pushScope initState) =
      .thrown "b" (pushScope initState)) ∧
    (interpOp (fun _ => ⟨0, 2⟩)
        (.forNode ⟨⟨⟨1, 0⟩, ⟨1, 2⟩⟩, .other⟩ [.throwErr "b"]) initState).state.errors =
      (pushScope initState).errors ++ [⟨"b", ⟨0, 2⟩⟩] :=
  ⟨rfl,
    (capture_failures_never_escape (fun _ => ⟨0, 2⟩) ⟨⟨⟨1, 0⟩, ⟨1, 2⟩⟩, .other⟩
      [.throwErr "b"] initState).2 "b" (pushScope initState) rfl⟩

/-- C9 -- the `assert(segmentsStack.length === 1)` after the driver returns
can never fail: `captureMapping` pops both stacks on every exit path, so for
every driver both stacks have depth exactly 1 when the driver callback
returns, and `mapTemplateContents` never fails its assertion. -/
theorem scope_stacks_always_balanced (parse : String → Except String Node)
    (template : String) (driver : Node → List Op) (ast : Node)
    (hparse : parse template = .ok ast) :
    (interpOps (calculateLineOffsets template) (driver ast)
        initState).state.segmentsStack.length = 1 ∧
    (interpOps (calculateLineOffsets template) (driver ast)
        initState).state.mappingsStack.length = 1 ∧
    mapTemplateContents parse template driver ≠ .error .assertionFailed := by
  obtain ⟨ds, dm, de, e1, e2, e3, e4, e5⟩ :=
    interpOps_inv (calculateLineOffsets template) (driver ast) initState
      [] [] [] [] rfl rfl
  refine ⟨by rw [e1]; rfl, by rw [e2]; rfl, ?_⟩
  unfold mapTemplateContents
  rw [hparse]
  cases ho : interpOps (calculateLineOffsets template) (driver ast) initState with
  | normal s1 =>
    rw [ho] at e1
    have hlen : s1.segmentsStack.length = 1 := by
      simpa using congrArg List.length e1
    simp [ho, hlen]
  | thrown msg s1 => simp [ho]

/-- Closed instance of `scope_stacks_always_balanced` at a parser that
succeeds on `"ab"`. -/
theorem scope_stacks_always_balanced_witness :
    parseOk "ab" = .ok ⟨⟨⟨1, 0⟩, ⟨1, 2⟩⟩, .other⟩ ∧
    mapTemplateContents parseOk "ab" (fun _ => []) ≠ .error .assertionFailed :=
  ⟨rfl, (scope_stacks_always_balanced parseOk "ab" (fun _ => [])
    ⟨⟨⟨1, 0⟩, ⟨1, 2⟩⟩, .other⟩ rfl).2.2⟩

/-- C4 -- `mapTemplateContents` returns with `result` absent exactly when the
external parser throws; in that case the return value is precisely
`{errors: [{message, location: {0, template.length}}], result: undefined}`
with no output produced, and whenever the function returns at all with the
parser having succeeded, `result` is present. -/
theorem result_absent_iff_parse_fails (parse : String → Except String Node)
    (template : String) (driver : Node → List Op) :
    (∀ msg, parse template = .error msg →
      mapTemplateContents parse template driver =
        .ok ⟨[⟨msg, ⟨0, template.length⟩⟩], none⟩) ∧
    (∀ r, mapTemplateContents parse template driver = .ok r →
      (r.result = none ↔ ∃ msg, parse template = .error msg)) := by
  constructor
  · intro msg hmsg
    simp [mapTemplateContents, hmsg]
  · intro r hr
    cases hp : parse template with
    | error msg =>
      unfold mapTemplateContents at hr
      rw [hp] at hr
      simp only [Except.ok.injEq] at hr
      rw [← hr]
      simp [hp]
    | ok ast =>
      constructor
      · intro hnone
        exfalso
        obtain ⟨ds, dm, de, e1, e2, e3, e4, e5⟩ :=
          interpOps_inv (calculateLineOffsets template) (driver ast) initState
            [] [] [] [] rfl rfl
        simp only [mapTemplateContents, hp] at hr
        cases ho : interpOps (calculateLineOffsets template) (driver ast) initState with
        | normal s1 =>
          rw [ho] at hr e1
          simp only [Outcome.state_normal] at e1
          have hlen : s1.segmentsStack.length = 1 := by
            simpa using congrArg List.length e1
          simp only [hlen, if_true, Except.ok.injEq, if_pos] at hr
          rw [← hr] at hnone
          simp at hnone
        | thrown msg s1 =>
          rw [ho] at hr
          simp at hr
      · rintro ⟨msg, hmsg⟩
        exact absurd hmsg (by simp)

/-- Closed instance of `result_absent_iff_parse_fails`: a failing parse yields
exactly the single whole-template error with no result, and a successful
parse yields a present result. -/
theorem result_absent_iff_parse_fails_witness :
    (mapTemplateContents (fun _ => .error "bad") "ab" (fun _ => []) =
      .ok ⟨[⟨"bad", ⟨0, 2⟩⟩], none⟩) ∧
    ((⟨[], some ⟨"", MappingTree.mk ⟨0, 0⟩ ⟨0, 2⟩ []
        (.astNode ⟨⟨⟨1, 0⟩, ⟨1, 2⟩⟩, .other⟩)⟩⟩ : RewriteResult).result = none ↔
      ∃ msg, parseOk "ab" = .error msg) :=
  ⟨(result_absent_iff_parse_fails (fun _ => .error "bad") "ab" (fun _ => [])).1
      "bad" rfl,
   (result_absent_iff_parse_fails parseOk "ab" (fun _ => [])).2
      ⟨[], some ⟨"", MappingTree.mk ⟨0, 0⟩ ⟨0, 2⟩ []
        (.astNode ⟨⟨⟨1, 0⟩, ⟨1, 2⟩⟩, .other⟩)⟩⟩ rfl⟩

/-! ### The containment invariant (C2) -/

theorem joinSegments_length (l : List String) :
    (joinSegments l).length = sumLens l := by
  induction l with
  | nil => rfl
  | cons s rest ih => simp [joinSegments, sumLens, ih]

/-- C2 -- corrected: the output-range half of the containment invariant.  For
every parser, template and driver, every mapping tree produced by
`mapTemplateContents` is well-formed on output ranges: each child's
`outputRange` is contained in its parent's, and siblings, ordered by
`outputRange.start`, never overlap.  (The source-range half of the original
claim is refuted by `mapping_srcRange_containment_fails`.) -/
theorem mapping_output_ranges_wellformed (parse : String → Except String Node)
    (template : String) (driver : Node → List Op) (r : RewriteResult)
    (code : String) (tree : MappingTree)
    (h : mapTemplateContents parse template driver = .ok r)
    (hres : r.result = some ⟨code, tree⟩) :
    treeWfB tree = true := by
  cases hp : parse template with
  | error msg =>
    unfold mapTemplateContents at h
    rw [hp] at h
    simp only [Except.ok.injEq] at h
    rw [← h] at hres
    simp at hres
  | ok ast =>
    obtain ⟨ds, dm, de, e1, e2, e3, e4, e5⟩ :=
      interpOps_inv (calculateLineOffsets template) (driver ast) initState
        [] [] [] [] rfl rfl
    simp only [mapTemplateContents, hp] at h
    cases ho : interpOps (calculateLineOffsets template) (driver ast) initState with
    | thrown msg s1 =>
      rw [ho] at h
      simp at h
    | normal s1 =>
      rw [ho] at h e1 e2 e4 e5
      simp only [Outcome.state_normal, List.nil_append] at e1 e2 e4 e5
      have hlen : s1.segmentsStack.length = 1 := by
        simp [e1]
      simp only [hlen, if_pos, if_true, Except.ok.injEq] at h
      rw [← h] at hres
      simp only [Option.some.injEq, RewriteSuccess.mk.injEq] at hres
      obtain ⟨hc, hm⟩ := hres
      rw [← hm]
      have hchild : s1.mappingsStack.headD [] = dm := by rw [e2]; rfl
      have hseg : s1.segmentsStack.headD [] = ds := by rw [e1]; rfl
      have hcodelen : (joinSegments (s1.segmentsStack.headD [])).length = s1.offset := by
        rw [hseg, joinSegments_length]
        simpa [initState] using e4.symm
      simp only [treeWfB, MappingTree.tsRange, Bool.and_eq_true, decide_eq_true_eq]
      constructor
      · simp
      · rw [hchild, hcodelen]
        simpa [initState] using e5

/-- C2 -- counterexample to the source-range half of the claim as stated: a
driver that calls `emit.identifier` with an arbitrary `hbsOffset` inside the
root scope produces a child whose `sourceRange` `{100, 101}` is not contained
in its parent's `sourceRange` `{0, 2}`. -/
theorem mapping_srcRange_containment_fails :
    mapTemplateContents parseOk "ab" (fun _ => [.identifier "x" 100 none]) =
      .ok ⟨[], some ⟨"x",
        MappingTree.mk ⟨0, 1⟩ ⟨0, 2⟩
          [MappingTree.mk ⟨0, 1⟩ ⟨100, 101⟩ [] (.identifier "x")]
          (.astNode ⟨⟨⟨1, 0⟩, ⟨1, 2⟩⟩, .other⟩)⟩⟩ ∧
    srcTreeWfB (MappingTree.mk ⟨0, 1⟩ ⟨0, 2⟩
      [MappingTree.mk ⟨0, 1⟩ ⟨100, 101⟩ [] (.identifier "x")]
      (.astNode ⟨⟨⟨1, 0⟩, ⟨1, 2⟩⟩, .other⟩)) = false :=
  ⟨rfl, rfl⟩

/-- Closed instance of `mapping_output_ranges_wellformed` on the same run as
the counterexample: the output-range half does hold there. -/
theorem mapping_output_ranges_wellformed_witness :
    (mapTemplateContents parseOk "ab" (fun _ => [.identifier "x" 100 none]) =
      .ok ⟨[], some ⟨"x",
        MappingTree.mk ⟨0, 1⟩ ⟨0, 2⟩
          [MappingTree.mk ⟨0, 1⟩ ⟨100, 101⟩ [] (.identifier "x")]
          (.astNode ⟨⟨⟨1, 0⟩, ⟨1, 2⟩⟩, .other⟩)⟩⟩) ∧
    treeWfB (MappingTree.mk ⟨0, 1⟩ ⟨0, 2⟩
      [MappingTree.mk ⟨0, 1⟩ ⟨100, 101⟩ [] (.identifier "x")]
      (.astNode ⟨⟨⟨1, 0⟩, ⟨1, 2⟩⟩, .other⟩)) = true :=
  ⟨rfl,
    mapping_output_ranges_wellformed parseOk "ab" (fun _ => [.identifier "x" 100 none])
      ⟨[], some ⟨"x",
        MappingTree.mk ⟨0, 1⟩ ⟨0, 2⟩
          [MappingTree.mk ⟨0, 1⟩ ⟨100, 101⟩ [] (.identifier "x")]
          (.astNode ⟨⟨⟨1, 0⟩, ⟨1, 2⟩⟩, .other⟩)⟩⟩ "x"
      (MappingTree.mk ⟨0, 1⟩ ⟨0, 2⟩
        [MappingTree.mk ⟨0, 1⟩ ⟨100, 101⟩ [] (.identifier "x")]
        (.astNode ⟨⟨⟨1, 0⟩, ⟨1, 2⟩⟩, .other⟩)) rfl rfl⟩

/-! ### Text/offset consistency (C5) -/

theorem forestTilesB_cons (lo hi : Nat) (t : MappingTree) (rest : List MappingTree) :
    forestTilesB lo hi (t :: rest) = true ↔
      t.tsRange.start = lo ∧ lo ≤ t.tsRange.stop ∧
      forestTilesB t.tsRange.stop hi rest = true := by
  simp only [forestTilesB, Bool.and_eq_true, decide_eq_true_eq]
  tauto

theorem forestTilesB_le {lo hi : Nat} {ts : List MappingTree}
    (h : forestTilesB lo hi ts = true) : lo ≤ hi := by
  induction ts generalizing lo with
  | nil =>
    simp only [forestTilesB, decide_eq_true_eq] at h
    omega
  | cons t rest ih =>
    rw [forestTilesB_cons] at h
    exact le_trans h.2.1 (ih h.2.2)

theorem forestTilesB_append {lo mid hi : Nat} {xs ys : List MappingTree}
    (h1 : forestTilesB lo mid xs = true) (h2 : forestTilesB mid hi ys = true) :
    forestTilesB lo hi (xs ++ ys) = true := by
  induction xs generalizing lo with
  | nil =>
    simp only [forestTilesB, decide_eq_true_eq] at h1
    rw [List.nil_append, h1]
    exact h2
  | cons x xs ih =>
    rw [forestTilesB_cons] at h1
    rw [List.cons_append, forestTilesB_cons]
    exact ⟨h1.1, h1.2.1, ih h1.2.2⟩

theorem sliceStr_append (code : String) {a b c : Nat} (hab : a ≤ b) (hbc : b ≤ c) :
    sliceStr code a b ++ sliceStr code b c = sliceStr code a c := by
  show String.mk _ ++ String.mk _ = String.mk _
  have hmk : ∀ u v : List Char, String.mk u ++ String.mk v = String.mk (u ++ v) :=
    fun _ _ => rfl
  rw [hmk]
  congr 1
  have hdrop : code.toList.drop b = (code.toList.drop a).drop (b - a) := by
    rw [List.drop_drop]
    congr 1
    omega
  rw [hdrop, show c - a = (b - a) + (c - b) by omega, List.take_add]

theorem sliceStr_full (code : String) : sliceStr code 0 code.length = code := by
  cases code with
  | mk data => simp [sliceStr, String.toList, String.length]

theorem coveredText_of_tiles (code : String) {lo hi : Nat} {ts : List MappingTree}
    (h : forestTilesB lo hi ts = true) :
    coveredText code ts = sliceStr code lo hi := by
  induction ts generalizing lo with
  | nil =>
    simp only [forestTilesB, decide_eq_true_eq] at h
    subst h
    simp [coveredText, joinSegments, sliceStr]
  | cons t rest ih =>
    rw [forestTilesB_cons] at h
    obtain ⟨hstart, hle, hrest⟩ := h
    have : coveredText code (t :: rest) =
        sliceStr code t.tsRange.start t.tsRange.stop ++ coveredText code rest := by
      simp [coveredText, joinSegments]
    rw [this, ih hrest, hstart,
      sliceStr_append code hle (forestTilesB_le hrest)]

/-- A single scoped op (`forNode`, `identifier`, `indent`, `dedent`) returns
normally and contributes either nothing or exactly one mapping node that
covers precisely the output emitted by the op, so contributions tile the
output. -/
theorem interpOp_scoped_step (rfn : Node → Range) (op : Op) (s : EmitState)
    (hs : List String) (ts : List (List String)) (hm : List MappingTree)
    (tm : List (List MappingTree)) (hsc : isScopedOp op = true)
    (h1 : s.segmentsStack = hs :: ts) (h2 : s.mappingsStack = hm :: tm) :
    ∃ s' ds dm, interpOp rfn op s = .normal s' ∧
      s'.segmentsStack = (hs ++ ds) :: ts ∧
      s'.mappingsStack = (hm ++ dm) :: tm ∧
      forestTilesB s.offset s'.offset dm = true := by
  cases op with
  | newline => simp [isScopedOp] at hsc
  | text value => simp [isScopedOp] at hsc
  | throwErr message => simp [isScopedOp] at hsc
  | indentOp =>
    refine ⟨_, [], [], rfl, ?_, ?_, ?_⟩ <;> simp [interpOp, h1, h2, forestTilesB]
  | dedent =>
    refine ⟨_, [], [], rfl, ?_, ?_, ?_⟩ <;> simp [interpOp, h1, h2, forestTilesB]
  | identifier value hbsOffset hbsLength =>
    by_cases hni : s.needsIndent = true
    · by_cases hoff : s.offset = s.offset + s.indent.length + value.length
      · refine ⟨_, [], [], rfl, ?_, ?_, ?_⟩ <;>
          simp [interpOp, finishCapture, commitScope, emitText_eq, pushScope, hni,
            h1, h2, forestTilesB, ← hoff]
      · refine ⟨_, [s.indent, value],
          [MappingTree.mk ⟨s.offset, s.offset + s.indent.length + value.length⟩
            ⟨hbsOffset, hbsOffset + hbsLength.getD value.length⟩ []
            (.identifier value)], rfl, ?_, ?_, ?_⟩ <;>
          simp [interpOp, finishCapture, commitScope, emitText_eq, pushScope, hni,
            h1, h2, forestTilesB, MappingTree.tsRange, hoff]
        omega
    · by_cases hoff : s.offset = s.offset + value.length
      · refine ⟨_, [], [], rfl, ?_, ?_, ?_⟩ <;>
          simp [interpOp, finishCapture, commitScope, emitText_eq, pushScope, hni,
            h1, h2, forestTilesB, ← hoff]
      · refine ⟨_, [value],
          [MappingTree.mk ⟨s.offset, s.offset + value.length⟩
            ⟨hbsOffset, hbsOffset + hbsLength.getD value.length⟩ []
            (.identifier value)], rfl, ?_, ?_, ?_⟩ <;>
          simp [interpOp, finishCapture, commitScope, emitText_eq, pushScope, hni,
            h1, h2, forestTilesB, MappingTree.tsRange, hoff]
  | forNode node body =>
    obtain ⟨ds, dm, de, e1, e2, e3, e4⟩ := body_state_shape rfn body s
    cases ho : interpOps rfn body (pushScope s) with
    | normal s2 =>
      rw [ho] at e1 e2 e4
      simp only [Outcome.state_normal] at e1 e2 e4
      have hrun : interpOp rfn (.forNode node body) s =
          .normal (commitScope (rfn node) (.astNode node) s.offset s2) := by
        rw [interpOp_forNode_eq, ho]
        rfl
      by_cases hoff : s.offset = s2.offset
      · refine ⟨_, [], [], hrun, ?_, ?_, ?_⟩ <;>
          simp [commitScope, e1, e2, h1, h2, hoff, forestTilesB]
      · refine ⟨_, ds,
          [MappingTree.mk ⟨s.offset, s2.offset⟩ (rfn node) dm (.astNode node)],
          hrun, ?_, ?_, ?_⟩ <;>
          simp [commitScope, e1, e2, h1, h2, hoff, forestTilesB,
            MappingTree.tsRange, modifyTop]
        omega
    | thrown msg s2 =>
      rw [ho] at e1 e2
      simp only [Outcome.state_thrown] at e1 e2
      have hrun : interpOp rfn (.forNode node body) s =
          .normal (commitScope (rfn node) (.astNode node) s.offset
            { s2 with errors := s2.errors ++ [⟨msg, rfn node⟩], offset := s.offset }) := by
        rw [interpOp_forNode_eq, ho]
        rfl
      refine ⟨_, [], [], hrun, ?_, ?_, ?_⟩ <;>
        simp [commitScope, e1, e2, h1, h2, forestTilesB]

/-- A sequence of scoped ops returns normally and its mapping contributions
tile the span of output it emits. -/
theorem interpOps_scoped_tiles (rfn : Node → Range) (ops : List Op) (s : EmitState)
    (hs : List String) (ts : List (List String)) (hm : List MappingTree)
    (tm : List (List MappingTree)) (hsc : ops.all isScopedOp = true)
    (h1 : s.segmentsStack = hs :: ts) (h2 : s.mappingsStack = hm :: tm) :
    ∃ s' ds dm, interpOps rfn ops s = .normal s' ∧
      s'.segmentsStack = (hs ++ ds) :: ts ∧
      s'.mappingsStack = (hm ++ dm) :: tm ∧
      forestTilesB s.offset s'.offset dm = true := by
  induction ops generalizing s hs hm with
  | nil =>
    refine ⟨s, [], [], ?_, ?_, ?_, ?_⟩ <;> simp [interpOps, h1, h2, forestTilesB]
  | cons op rest ih =>
    simp only [List.all_cons, Bool.and_eq_true] at hsc
    obtain ⟨s1, ds1, dm1, g0, g1, g2, g3⟩ :=
      interpOp_scoped_step rfn op s hs ts hm tm hsc.1 h1 h2
    obtain ⟨s2, ds2, dm2, f0, f1, f2, f3⟩ :=
      ih s1 (hs ++ ds1) (hm ++ dm1) hsc.2 g1 g2
    refine ⟨s2, ds1 ++ ds2, dm1 ++ dm2, ?_, ?_, ?_, ?_⟩
    · rw [interpOps_cons_eq, g0]
      exact f0
    · rw [f1, List.append_assoc]
    · rw [f2, List.append_assoc]
    · exact forestTilesB_append g3 f3

/-- C5 -- corrected: the root node's `outputRange` always equals
`{0, length(code)}`; and provided the driver performs all of its emission
inside top-level `forNode`/`identifier` calls (no raw `text`/`newline` at the
top level), concatenating in order the substrings of `code` covered by the
root's children's output ranges yields `code` exactly.  (Without that proviso
the claim fails: see `root_children_cover_gap`.) -/
theorem root_children_cover_output (parse : String → Except String Node)
    (template : String) (driver : Node → List Op) (ast : Node) (r : RewriteResult)
    (code : String) (tree : MappingTree)
    (hparse : parse template = .ok ast)
    (h : mapTemplateContents parse template driver = .ok r)
    (hres : r.result = some ⟨code, tree⟩) :
    tree.tsRange = ⟨0, code.length⟩ ∧
    ((driver ast).all isScopedOp = true → coveredText code tree.children = code) := by
  obtain ⟨ds, dm, de, e1, e2, e3, e4, e5⟩ :=
    interpOps_inv (calculateLineOffsets template) (driver ast) initState
      [] [] [] [] rfl rfl
  simp only [mapTemplateContents, hparse] at h
  cases ho : interpOps (calculateLineOffsets template) (driver ast) initState with
  | thrown msg s1 =>
    rw [ho] at h
    simp at h
  | normal s1 =>
    rw [ho] at h e1 e2 e4 e5
    simp only [Outcome.state_normal, List.nil_append] at e1 e2 e4 e5
    have hlen : s1.segmentsStack.length = 1 := by simp [e1]
    simp only [hlen, if_pos, if_true, Except.ok.injEq] at h
    rw [← h] at hres
    simp only [Option.some.injEq, RewriteSuccess.mk.injEq] at hres
    obtain ⟨hc, hm⟩ := hres
    have hseg : s1.segmentsStack.headD [] = ds := by rw [e1]; rfl
    have hchild : s1.mappingsStack.headD [] = dm := by rw [e2]; rfl
    constructor
    · rw [← hm, ← hc]
      rfl
    · intro hall
      obtain ⟨s2, ds2, dm2, f0, f1, f2, f3⟩ :=
        interpOps_scoped_tiles (calculateLineOffsets template) (driver ast)
          initState [] [] [] [] hall rfl rfl
      rw [ho] at f0
      have h12 : s1 = s2 := by
        injection f0
      subst h12
      simp only [List.nil_append] at f1 f2 f3
      rw [e1] at f1
      rw [e2] at f2
      simp only [List.cons.injEq, and_true] at f1 f2
      have hcov : coveredText code dm2 = sliceStr code 0 s1.offset := by
        have f3' : forestTilesB 0 s1.offset dm2 = true := by
          simpa [initState] using f3
        exact coveredText_of_tiles code f3'
      have hlen2 : code.length = s1.offset := by
        rw [← hc, joinSegments_length, hseg]
        simp only [initState] at e4
        omega
      rw [← hm]
      show coveredText code (s1.mappingsStack.headD []) = code
      rw [hchild, f2, hcov, ← hlen2]
      exact sliceStr_full code

/-- C5 -- counterexample to the claim as stated: a driver that emits text at
the top level, outside every `forNode`/`identifier` scope, produces output
covered by no root child at all — the concatenation of the children's covered
substrings is empty while the code is `"x"`. -/
theorem root_children_cover_gap :
    mapTemplateContents parseOk "ab" (fun _ => [.text "x"]) =
      .ok ⟨[], some ⟨"x",
        MappingTree.mk ⟨0, 1⟩ ⟨0, 2⟩ []
          (.astNode ⟨⟨⟨1, 0⟩, ⟨1, 2⟩⟩, .other⟩)⟩⟩ ∧
    coveredText "x"
      (MappingTree.children (MappingTree.mk ⟨0, 1⟩ ⟨0, 2⟩ []
        (.astNode ⟨⟨⟨1, 0⟩, ⟨1, 2⟩⟩, .other⟩))) ≠ "x" :=
  ⟨rfl, by decide⟩

/-- Closed instance of `root_children_cover_output`: with all emission done
through a top-level `identifier` call, the root child covers the whole
output. -/
theorem root_children_cover_output_witness :
    (parseOk "ab" = .ok ⟨⟨⟨1, 0⟩, ⟨1, 2⟩⟩, .other⟩) ∧
    (mapTemplateContents parseOk "ab" (fun _ => [.identifier "x" 0 none]) =
      .ok ⟨[], some ⟨"x",
        MappingTree.mk ⟨0, 1⟩ ⟨0, 2⟩
          [MappingTree.mk ⟨0, 1⟩ ⟨0, 1⟩ [] (.identifier "x")]
          (.astNode ⟨⟨⟨1, 0⟩, ⟨1, 2⟩⟩, .other⟩)⟩⟩) ∧
    (MappingTree.mk ⟨0, 1⟩ ⟨0, 2⟩
        [MappingTree.mk ⟨0, 1⟩ ⟨0, 1⟩ [] (.identifier "x")]
        (.astNode ⟨⟨⟨1, 0⟩, ⟨1, 2⟩⟩, .other⟩)).tsRange = ⟨0, 1⟩ ∧
    coveredText "x"
      (MappingTree.mk ⟨0, 1⟩ ⟨0, 2⟩
        [MappingTree.mk ⟨0, 1⟩ ⟨0, 1⟩ [] (.identifier "x")]
        (.astNode ⟨⟨⟨1, 0⟩, ⟨1, 2⟩⟩, .other⟩)).children = "x" := by
  have h := root_children_cover_output parseOk "ab" (fun _ => [.identifier "x" 0 none])
    ⟨⟨⟨1, 0⟩, ⟨1, 2⟩⟩, .other⟩
    ⟨[], some ⟨"x",
      MappingTree.mk ⟨0, 1⟩ ⟨0, 2⟩
        [MappingTree.mk ⟨0, 1⟩ ⟨0, 1⟩ [] (.identifier "x")]
        (.astNode ⟨⟨⟨1, 0⟩, ⟨1, 2⟩⟩, .other⟩)⟩⟩ "x"
    (MappingTree.mk ⟨0, 1⟩ ⟨0, 2⟩
      [MappingTree.mk ⟨0, 1⟩ ⟨0, 1⟩ [] (.identifier "x")]
      (.astNode ⟨⟨⟨1, 0⟩, ⟨1, 2⟩⟩, .other⟩)) rfl rfl rfl
  exact ⟨rfl, rfl, h.1, h.2 rfl⟩

/-! ### The line-offset index (C7) -/


theorem lineOffsetsAux_getD (lines : List String) (total : Nat) (i : Nat)
    (h : i < lines.length) :
    (lineOffsetsAux total lines).getD i 0 = total + lineLenSum (lines.take i) := by
  induction lines generalizing total i with
  | nil => simp at h
  | cons line rest ih =>
    cases i with
    | zero => simp [lineOffsetsAux, lineLenSum]
    | succ n =>
      simp only [lineOffsetsAux, List.getD_cons_succ, List.take_succ_cons]
      rw [ih (total + line.length + 1) n (by simpa using h)]
      simp [lineLenSum]
      omega

/-- The table built by the `calculateLineOffsets` loop realizes the prefix
sums of line lengths: for a 1-indexed in-range `line`,
`offsets[line] = sum of (length + 1) over the first line - 1 lines`. -/
theorem offsets_getD (lines : List String) (line : Nat) (h1 : 1 ≤ line)
    (h2 : line ≤ lines.length) :
    (0 :: lineOffsetsAux 0 lines).getD line 0 =
      lineLenSum (lines.take (line - 1)) := by
  cases line with
  | zero => omega
  | succ n =>
    simp only [List.getD_cons_succ]
    rw [lineOffsetsAux_getD lines 0 n (by omega)]
    simp

theorem takeWhile_length_eq_iff_all (p : Char → Bool) (l : List Char) :
    (l.takeWhile p).length = l.length ↔ l.all p = true := by
  constructor
  · intro h
    have heq : l.takeWhile p = l := (List.takeWhile_prefix p).eq_of_length h
    rw [List.all_eq_true]
    intro x hx
    rw [List.takeWhile_eq_self_iff] at heq
    exact heq x hx
  · intro h
    have heq : l.takeWhile p = l := by
      rw [List.takeWhile_eq_self_iff]
      rw [List.all_eq_true] at h
      exact h
    rw [heq]

/-- C7 -- `rangeForNode` maps a node's 1-indexed line/column endpoints to
absolute offsets via the precomputed line-length prefix sums, and exactly
when the node is a `TextNode` whose text is not entirely whitespace it
advances the start past the leading whitespace and retreats the end before
the trailing whitespace; an all-whitespace `TextNode` (including the empty
one) and every non-`TextNode` receive the untrimmed range. -/
theorem rangeForNode_prefix_sums_and_trim (template : String) (node : Node)
    (hs1 : 1 ≤ node.loc.start.line)
    (hs2 : node.loc.start.line ≤ (templateLines template).length)
    (he1 : 1 ≤ node.loc.stop.line)
    (he2 : node.loc.stop.line ≤ (templateLines template).length) :
    calculateLineOffsets template node =
      (let lines := templateLines template
       let s := lineLenSum (lines.take (node.loc.start.line - 1)) +
         node.loc.start.column
       let e := lineLenSum (lines.take (node.loc.stop.line - 1)) +
         node.loc.stop.column
       match node.kind with
       | .textNode chars =>
           if chars.toList.all Char.isWhitespace then ⟨s, e⟩
           else
             ⟨s + (chars.toList.takeWhile Char.isWhitespace).length,
              e - (chars.toList.reverse.takeWhile Char.isWhitespace).length⟩
       | .other => ⟨s, e⟩) := by
  obtain ⟨⟨⟨sl, sc⟩, ⟨el, ec⟩⟩, kind⟩ := node
  simp only [calculateLineOffsets]
  simp only at hs1 hs2 he1 he2
  rw [offsets_getD _ _ hs1 hs2, offsets_getD _ _ he1 he2]
  cases kind with
  | other => rfl
  | textNode chars =>
    simp only
    have hbridge : (List.takeWhile Char.isWhitespace chars.toList).length = chars.length ↔
        chars.toList.all Char.isWhitespace = true := by
      rw [show chars.length = chars.toList.length from rfl]
      exact takeWhile_length_eq_iff_all Char.isWhitespace chars.toList
    split_ifs with h1 h2 h3
    · exact absurd (hbridge.2 h2) h1
    · rfl
    · rfl
    · exact absurd (hbridge.1 (not_not.mp h1)) h3

/-- Closed instance of `rangeForNode_prefix_sums_and_trim`: in
`"ab\n cd "`, the text node `" cd "` on line 2 gets its range `{3, 7}`
trimmed inward to `{4, 6}`. -/
theorem rangeForNode_prefix_sums_and_trim_witness :
    ((1 : Nat) ≤ 2) ∧ ((2 : Nat) ≤ (templateLines "ab\n cd ").length) ∧
    calculateLineOffsets "ab\n cd " ⟨⟨⟨2, 0⟩, ⟨2, 4⟩⟩, .textNode " cd "⟩ =
      ⟨4, 6⟩ := by
  refine ⟨by decide, by decide, ?_⟩
  rw [rangeForNode_prefix_sums_and_trim "ab\n cd " ⟨⟨⟨2, 0⟩, ⟨2, 4⟩⟩, .textNode " cd "⟩
    (by decide) (by decide) (by decide) (by decide)]
  rfl

/-! ### Indentation deferral (C8) -/


@[simp] theorem setIndent_offset (j : String) (s : EmitState) :
    (setIndent j s).offset = s.offset := rfl

@[simp] theorem setIndent_needsIndent (j : String) (s : EmitState) :
    (setIndent j s).needsIndent = s.needsIndent := rfl

@[simp] theorem setIndent_segmentsStack (j : String) (s : EmitState) :
    (setIndent j s).segmentsStack = s.segmentsStack := rfl

@[simp] theorem setIndent_mappingsStack (j : String) (s : EmitState) :
    (setIndent j s).mappingsStack = s.mappingsStack := rfl

@[simp] theorem setIndent_errors (j : String) (s : EmitState) :
    (setIndent j s).errors = s.errors := rfl

theorem indentErase_setIndentO (j : String) (o : Outcome) :
    indentErase (setIndentO j o) = indentErase o := by
  cases o <;> rfl

theorem commitScope_setIndent (hbs : Range) (src : MappingSource) (start : Nat)
    (j : String) (s : EmitState) :
    commitScope hbs src start (setIndent j s) =
      setIndent j (commitScope hbs src start s) := by
  cases hseg : s.segmentsStack with
  | nil => simp [commitScope, setIndent, hseg]
  | cons a as =>
    cases hmap : s.mappingsStack with
    | nil => simp [commitScope, setIndent, hseg, hmap]
    | cons b bs =>
      simp only [commitScope, setIndent, hseg, hmap]
      split_ifs <;> rfl

theorem commitScope_needsIndent (hbs : Range) (src : MappingSource) (start : Nat)
    (s : EmitState) :
    (commitScope hbs src start s).needsIndent = s.needsIndent := by
  cases hseg : s.segmentsStack with
  | nil => simp [commitScope, hseg]
  | cons a as =>
    cases hmap : s.mappingsStack with
    | nil => simp [commitScope, hseg, hmap]
    | cons b bs =>
      simp only [commitScope, hseg, hmap]
      split_ifs <;> rfl

theorem finishCapture_setIndentO (hbs : Range) (src : MappingSource) (start : Nat)
    (j : String) (o : Outcome) :
    finishCapture hbs src start (setIndentO j o) =
      setIndent j (finishCapture hbs src start o) := by
  cases o with
  | normal s =>
    show commitScope hbs src start (setIndent j s) = _
    rw [commitScope_setIndent]
    rfl
  | thrown msg s =>
    show commitScope hbs src start
      (setIndent j { s with errors := s.errors ++ [⟨msg, hbs⟩], offset := start }) = _
    rw [commitScope_setIndent]
    rfl

theorem finishCapture_needsIndent (hbs : Range) (src : MappingSource) (start : Nat)
    (o : Outcome) :
    (finishCapture hbs src start o).needsIndent = o.state.needsIndent := by
  cases o with
  | normal s => exact commitScope_needsIndent hbs src start s
  | thrown msg s =>
    show (commitScope hbs src start _).needsIndent = _
    rw [commitScope_needsIndent]
    rfl

theorem emitText_setIndent (value j : String) (s : EmitState)
    (hni : s.needsIndent = false) :
    emitText value (setIndent j s) = setIndent j (emitText value s) := by
  rw [emitText_eq, emitText_eq]
  simp [setIndent, hni]

mutual

theorem interpOp_indent_only (rfn : Node → Range) (op : Op) (s : EmitState)
    (j : String) (hop : noNewlineOp op = true) (hni : s.needsIndent = false) :
    (∃ j', interpOp rfn op (setIndent j s) = setIndentO j' (interpOp rfn op s)) ∧
    (interpOp rfn op s).state.needsIndent = false := by
  cases op with
  | newline => simp [noNewlineOp] at hop
  | indentOp =>
    constructor
    · exact ⟨j ++ "  ", by simp [interpOp, setIndentO, setIndent]⟩
    · simp [interpOp, hni]
  | dedent =>
    constructor
    · exact ⟨j.drop 2, by simp [interpOp, setIndentO, setIndent]⟩
    · simp [interpOp, hni]
  | throwErr message =>
    constructor
    · exact ⟨j, by simp [interpOp, setIndentO]⟩
    · simp [interpOp, hni]
  | text value =>
    constructor
    · refine ⟨j, ?_⟩
      simp only [interpOp]
      rw [emitText_setIndent value j s hni]
      rfl
    · simp only [interpOp, Outcome.state_normal]
      rw [emitText_eq]
      simp [hni]
  | identifier value hbsOffset hbsLength =>
    have hpair : emitText value (pushScope (setIndent j s)) =
        setIndent j (emitText value (pushScope s)) := by
      rw [show pushScope (setIndent j s) = setIndent j (pushScope s) from rfl]
      exact emitText_setIndent value j (pushScope s) (by simp [hni])
    constructor
    · refine ⟨j, ?_⟩
      simp only [interpOp]
      rw [hpair, setIndent_offset,
        show Outcome.normal (setIndent j (emitText value (pushScope s))) =
          setIndentO j (.normal (emitText value (pushScope s))) from rfl,
        finishCapture_setIndentO]
      rfl
    · simp only [interpOp, Outcome.state_normal]
      rw [finishCapture_needsIndent]
      simp only [Outcome.state_normal]
      rw [emitText_eq]
      simp [hni]
  | forNode node body =>
    have hb : noNewlineOps body = true := by simpa [noNewlineOp] using hop
    have ihAll := interpOps_indent_only rfn body (pushScope s) j hb (by simp [hni])
    obtain ⟨⟨j', hj⟩, hnieq⟩ := ihAll
    constructor
    · refine ⟨j', ?_⟩
      rw [interpOp_forNode_eq rfn node body (setIndent j s),
        interpOp_forNode_eq rfn node body s,
        show pushScope (setIndent j s) = setIndent j (pushScope s) from rfl,
        setIndent_offset, hj, finishCapture_setIndentO]
      rfl
    · rw [interpOp_forNode_eq]
      simp only [Outcome.state_normal]
      rw [finishCapture_needsIndent]
      exact hnieq

theorem interpOps_indent_only (rfn : Node → Range) (ops : List Op) (s : EmitState)
    (j : String) (hops : noNewlineOps ops = true) (hni : s.needsIndent = false) :
    (∃ j', interpOps rfn ops (setIndent j s) = setIndentO j' (interpOps rfn ops s)) ∧
    (interpOps rfn ops s).state.needsIndent = false := by
  cases ops with
  | nil =>
    constructor
    · exact ⟨j, rfl⟩
    · simpa [interpOps] using hni
  | cons op rest =>
    have hsplit : noNewlineOp op = true ∧ noNewlineOps rest = true := by
      simpa [noNewlineOps] using hops
    obtain ⟨⟨j1, hj1⟩, hni1⟩ := interpOp_indent_only rfn op s j hsplit.1 hni
    cases ho : interpOp rfn op s with
    | normal s1 =>
      rw [ho] at hj1 hni1
      simp only [Outcome.state_normal] at hni1
      obtain ⟨⟨j2, hj2⟩, hni2⟩ := interpOps_indent_only rfn rest s1 j1 hsplit.2 hni1
      constructor
      · refine ⟨j2, ?_⟩
        rw [interpOps_cons_eq rfn op rest (setIndent j s),
          interpOps_cons_eq rfn op rest s, ho, hj1]
        simp only [setIndentO]
        exact hj2
      · rw [interpOps_cons_eq rfn op rest s, ho]
        exact hni2
    | thrown msg s1 =>
      rw [ho] at hj1 hni1
      simp only [Outcome.state_thrown] at hni1
      constructor
      · refine ⟨j1, ?_⟩
        rw [interpOps_cons_eq rfn op rest (setIndent j s),
          interpOps_cons_eq rfn op rest s, ho, hj1]
        simp [setIndentO]
      · rw [interpOps_cons_eq rfn op rest s, ho]
        exact hni1

end

/-- C8 -- corrected: an `indent()`/`dedent()` call changes the indentation
prefix by one fixed two-space unit, and provided no indentation is pending at
the moment of the call (`needsIndent = false`), it affects nothing emitted
before the next `newline()`: interpreting the remaining newline-free ops with
or without the `indent()`/`dedent()` yields identical results up to the final
indentation prefix.  (When a newline is already pending the very next `text`
call is affected: see `indent_affects_pending_text`.) -/
theorem indent_dedent_affect_only_after_newline (rfn : Node → Range)
    (ops : List Op) (s : EmitState)
    (hops : noNewlineOps ops = true) (hni : s.needsIndent = false) :
    interpOp rfn .indentOp s = .normal { s with indent := s.indent ++ "  " } ∧
    interpOp rfn .dedent s = .normal { s with indent := s.indent.drop 2 } ∧
    indentErase (interpOps rfn (Op.indentOp :: ops) s) =
      indentErase (interpOps rfn ops s) ∧
    indentErase (interpOps rfn (Op.dedent :: ops) s) =
      indentErase (interpOps rfn ops s) := by
  refine ⟨by simp [interpOp], by simp [interpOp], ?_, ?_⟩
  · obtain ⟨j', hj⟩ := (interpOps_indent_only rfn ops s (s.indent ++ "  ") hops hni).1
    have hstep : interpOps rfn (Op.indentOp :: ops) s =
        interpOps rfn ops (setIndent (s.indent ++ "  ") s) := by
      rw [interpOps_cons_eq]
      simp [interpOp, setIndent]
    rw [hstep, hj, indentErase_setIndentO]
  · obtain ⟨j', hj⟩ := (interpOps_indent_only rfn ops s (s.indent.drop 2) hops hni).1
    have hstep : interpOps rfn (Op.dedent :: ops) s =
        interpOps rfn ops (setIndent (s.indent.drop 2) s) := by
      rw [interpOps_cons_eq]
      simp [interpOp, setIndent]
    rw [hstep, hj, indentErase_setIndentO]

/-- C8 -- counterexample to the claim as stated: when a newline is already
pending at the moment of the `indent()` call, the very next `text` call —
which occurs after the `indent()` and before any subsequent `newline()` —
emits different output with the `indent()` than without it (`"\n  a"` versus
`"\na"`). -/
theorem indent_affects_pending_text :
    indentErase (interpOps (fun _ => ⟨0, 2⟩)
        [.newline, .indentOp, .text "a"] initState) ≠
      indentErase (interpOps (fun _ => ⟨0, 2⟩) [.newline, .text "a"] initState) := by
  intro hcon
  exact absurd (congrArg (fun o => o.state.offset) hcon) (by decide)

/-- Closed instance of `indent_dedent_affect_only_after_newline`: with no
pending newline, inserting `indent()` before a newline-free tail leaves the
emitted output unchanged. -/
theorem indent_dedent_affect_only_after_newline_witness :
    (noNewlineOps [.text "a"] = true) ∧
    (initState.needsIndent = false) ∧
    indentErase (interpOps (fun _ => ⟨0, 2⟩) (Op.indentOp :: [.text "a"]) initState) =
      indentErase (interpOps (fun _ => ⟨0, 2⟩) [.text "a"] initState) :=
  ⟨rfl, rfl,
    (indent_dedent_affect_only_after_newline (fun _ => ⟨0, 2⟩) [.text "a"]
      initState rfl rfl).2.2.1⟩

end MapTemplateContents
